import Mathlib

/-!
Verification development for the i*-to-UVL conversion pipeline
(repository `RDD-Hybrid-Systems`, scripts `src/iStar-UVL.py` and
`src/istar-uvl.py`).

The two Python scripts are near-duplicate implementations; definitions
suffixed `A` embed `src/iStar-UVL.py` (the `unidecode`/`lxml` variant)
and definitions suffixed `B` embed `src/istar-uvl.py` (the
`unicodedata`/`ElementTree` variant).  Strings are embedded as Lean
`String`/`List Char`; Python dicts as association lists with
insertion-order-preserving update; Python sets as `Finset String`.

Character-class functions of the Python runtime (`str.lower`,
`str.isalnum`, `unidecode.unidecode`, `unicodedata.normalize("NFD", ·)`
and `unicodedata.category`) are modelled table-driven: exact on ASCII and
on a representative table of Latin accented characters, identity (or the
library's default) elsewhere.  Each such model carries a doc comment
saying which Python function it stands for.
-/

/-- Association-list lookup used by the character tables below. -/
def tblGet {α : Type} (t : List (Char × α)) (c : Char) : Option α :=
  match t with
  | [] => none
  | (k, v) :: rest => if c = k then some v else tblGet rest c

/-- Membership of a successful `tblGet` lookup. -/
theorem tblGet_mem {α : Type} {t : List (Char × α)} {c : Char} {v : α}
    (h : tblGet t c = some v) : (c, v) ∈ t := by
  induction t with
  | nil => simp [tblGet] at h
  | cons p rest ih =>
    obtain ⟨k, w⟩ := p
    by_cases hc : c = k
    · subst hc
      simp [tblGet] at h
      simp [h]
    · simp [tblGet, hc] at h
      exact List.mem_cons_of_mem _ (ih h)

/-- Model of Python `str.lower` at character level: the ASCII letters
plus a representative table of Latin accented capitals; identity on every
other character. -/
def lowerTbl : List (Char × Char) :=
  [('A', 'a'), ('B', 'b'), ('C', 'c'), ('D', 'd'), ('E', 'e'), ('F', 'f'),
   ('G', 'g'), ('H', 'h'), ('I', 'i'), ('J', 'j'), ('K', 'k'), ('L', 'l'),
   ('M', 'm'), ('N', 'n'), ('O', 'o'), ('P', 'p'), ('Q', 'q'), ('R', 'r'),
   ('S', 's'), ('T', 't'), ('U', 'u'), ('V', 'v'), ('W', 'w'), ('X', 'x'),
   ('Y', 'y'), ('Z', 'z'),
   ('Á', 'á'), ('É', 'é'), ('Í', 'í'), ('Ó', 'ó'), ('Ú', 'ú'),
   ('Ü', 'ü'), ('Ñ', 'ñ'), ('À', 'à'), ('Ç', 'ç')]

/-- Character-level model of Python `str.lower`. -/
def lowerChar (c : Char) : Char := (tblGet lowerTbl c).getD c

/-- Model of Python `str.upper`/the titlecasing done by `str.capitalize`
on the first character: inverse table of `lowerTbl`. -/
def upperTbl : List (Char × Char) :=
  [('a', 'A'), ('b', 'B'), ('c', 'C'), ('d', 'D'), ('e', 'E'), ('f', 'F'),
   ('g', 'G'), ('h', 'H'), ('i', 'I'), ('j', 'J'), ('k', 'K'), ('l', 'L'),
   ('m', 'M'), ('n', 'N'), ('o', 'O'), ('p', 'P'), ('q', 'Q'), ('r', 'R'),
   ('s', 'S'), ('t', 'T'), ('u', 'U'), ('v', 'V'), ('w', 'W'), ('x', 'X'),
   ('y', 'Y'), ('z', 'Z'),
   ('á', 'Á'), ('é', 'É'), ('í', 'Í'), ('ó', 'Ó'), ('ú', 'Ú'),
   ('ü', 'Ü'), ('ñ', 'Ñ'), ('à', 'À'), ('ç', 'Ç')]

/-- Character-level model of the titlecasing step of Python
`str.capitalize`. -/
def upperChar (c : Char) : Char := (tblGet upperTbl c).getD c

/-- Model of Python `str.isspace` on one character (the whitespace set
`str.split()`/`str.strip()` use): ASCII whitespace plus no-break space. -/
def pyIsSpace (c : Char) : Bool :=
  c = ' ' || c = '\t' || c = '\n' || c = '\x0d' || c = '\x0b' || c = '\x0c' ||
  c = '\u00A0'

/-- Non-ASCII characters the model treats as alphanumeric (the accented
letters of the tables above). -/
def alnumExtra : List Char :=
  ['á', 'é', 'í', 'ó', 'ú', 'ü', 'ñ', 'à', 'ç',
   'Á', 'É', 'Í', 'Ó', 'Ú', 'Ü', 'Ñ', 'À', 'Ç']

/-- Model of Python `str.isalnum` on one character: ASCII letters and
digits plus the accented letters of the model's tables. -/
def pyIsAlnum (c : Char) : Bool :=
  ('a' ≤ c && c ≤ 'z') || ('A' ≤ c && c ≤ 'Z') || ('0' ≤ c && c ≤ '9') ||
  alnumExtra.contains c

/-- Model of `unidecode.unidecode` at character level (used by
`normalizeText` in `iStar-UVL.py`): identity on ASCII, the table's ASCII
transliteration on the accented characters it covers, and the library's
default (the empty transliteration) elsewhere. -/
def uniTbl : List (Char × List Char) :=
  [('á', ['a']), ('é', ['e']), ('í', ['i']), ('ó', ['o']), ('ú', ['u']),
   ('ü', ['u']), ('ñ', ['n']), ('à', ['a']), ('ç', ['c']),
   ('\u00A0', [' '])]

/-- Character-level model of `unidecode.unidecode`. -/
def unidecodeChar (c : Char) : List Char :=
  if c.toNat < 128 then [c] else (tblGet uniTbl c).getD []

/-- Model of `unicodedata.normalize("NFD", ·)` at character level (used
by `normalizeText` in `istar-uvl.py`): the canonical decomposition of the
accented characters in the table, and the identity decomposition
elsewhere. -/
def nfdTbl : List (Char × List Char) :=
  [('á', ['a', '\u0301']), ('é', ['e', '\u0301']), ('í', ['i', '\u0301']),
   ('ó', ['o', '\u0301']), ('ú', ['u', '\u0301']), ('ü', ['u', '\u0308']),
   ('ñ', ['n', '\u0303']), ('à', ['a', '\u0300']), ('ç', ['c', '\u0327'])]

/-- Character-level model of `unicodedata.normalize("NFD", ·)`. -/
def nfdChar (c : Char) : List Char := (tblGet nfdTbl c).getD [c]

/-- Model of `unicodedata.category(c) == "Mn"`: the combining diacritical
marks block U+0300..U+036F. -/
def isMn (c : Char) : Bool := 0x300 ≤ c.toNat && c.toNat ≤ 0x36F

/-- The character function of `normalizeText` in `istar-uvl.py`: NFD
decomposition followed by removal of the nonspacing marks. -/
def nfdDropMn (c : Char) : List Char := (nfdChar c).filter (fun d => !isMn d)

/-- Python `str.strip()` on a character list: drop whitespace from both
ends. -/
def pyStrip (l : List Char) : List Char :=
  ((l.dropWhile pyIsSpace).reverse.dropWhile pyIsSpace).reverse

/-- Python `str.strip()`. -/
def pyStripStr (s : String) : String := ⟨pyStrip s.data⟩

/-- `dropWhile` never lengthens a list. -/
theorem dropWhile_length_le {α : Type} (p : α → Bool) :
    ∀ l : List α, (l.dropWhile p).length ≤ l.length := by
  intro l
  induction l with
  | nil => simp
  | cons c rest ih =>
    by_cases h : p c
    · simp only [List.dropWhile_cons, h, if_true]
      exact Nat.le_trans ih (Nat.le_succ _)
    · simp [List.dropWhile_cons, h]

/-- Python `str.split()` with no argument: the maximal runs of
non-whitespace characters, in order, empty runs dropped. -/
def pySplit : List Char → List (List Char)
  | [] => []
  | c :: rest =>
    if pyIsSpace c then pySplit rest
    else (c :: rest.takeWhile (fun d => !pyIsSpace d)) ::
      pySplit (rest.dropWhile (fun d => !pyIsSpace d))
termination_by l => l.length
decreasing_by
  · simp
  · exact Nat.lt_succ_of_le (dropWhile_length_le _ rest)

/-- Python `" ".join(words)` on character lists. -/
def joinWords : List (List Char) → List Char
  | [] => []
  | [w] => w
  | w :: ws => w ++ ' ' :: joinWords ws

/-- The HTML entities the model of `html.unescape` resolves (a
representative slice of the library's table). -/
def entityTbl : List (List Char × Char) :=
  [(['a', 'm', 'p', ';'], '&'), (['l', 't', ';'], '<'), (['g', 't', ';'], '>'),
   (['q', 'u', 'o', 't', ';'], '"'), (['#', '3', '9', ';'], '\x27'),
   (['n', 'b', 's', 'p', ';'], ' ')]

/-- After a `&`, try to read one of the table's entity names: the
replacement character and the remaining input. -/
def matchEntity (l : List Char) : Option (Char × List Char) :=
  match entityTbl.find? (fun e => e.1.isPrefixOf l) with
  | some e => some (e.2, l.drop e.1.length)
  | none => none

/-- A successful `matchEntity` leaves no more input than it was given. -/
theorem matchEntity_length {l : List Char} {r : Char} {l2 : List Char}
    (h : matchEntity l = some (r, l2)) : l2.length ≤ l.length := by
  unfold matchEntity at h
  cases hf : entityTbl.find? (fun e => e.1.isPrefixOf l) with
  | none => rw [hf] at h; exact absurd h (by simp)
  | some e =>
    rw [hf] at h
    simp only [Option.some.injEq, Prod.mk.injEq] at h
    rw [← h.2]
    simpa using Nat.sub_le _ _

/-- Model of Python `html.unescape` (the entity-decoding step of
`cleanLabelText` in both scripts), restricted to `entityTbl`: scan the
text, and at each `&` resolve an entity of the table or keep the `&`. -/
def htmlUnescape : List Char → List Char
  | [] => []
  | c :: rest =>
    if c = '&' then
      match h : matchEntity rest with
      | some pr => pr.1 :: htmlUnescape pr.2
      | none => c :: htmlUnescape rest
    else c :: htmlUnescape rest
termination_by l => l.length
decreasing_by
  · exact Nat.lt_succ_of_le (matchEntity_length h)
  · simp
  · simp

/-- Consume characters up to and including the first `>`; `none` when
there is no `>`.  Models the `[^>]*>` tail of the tag regex
`<[^>]+>` of `cleanLabelText`. -/
def skipToClose : List Char → Option (List Char)
  | [] => none
  | c :: rest => if c = '>' then some rest else skipToClose rest

/-- Match `[^>]+>` at the head of the input (the body of the tag regex
after its `<`): the input after the closing `>`, or `none`. -/
def findTag : List Char → Option (List Char)
  | [] => none
  | c :: rest => if c = '>' then none else skipToClose rest

/-- `skipToClose` consumes at least one character. -/
theorem skipToClose_length : ∀ {l l2 : List Char},
    skipToClose l = some l2 → l2.length < l.length := by
  intro l
  induction l with
  | nil => intro l2 h; exact absurd h (by simp [skipToClose])
  | cons c rest ih =>
    intro l2 h
    by_cases hc : c = '>'
    · simp only [skipToClose, hc, if_true, Option.some.injEq] at h
      rw [← h]; simp
    · simp only [skipToClose, hc, if_false] at h
      exact Nat.lt_succ_of_lt (ih h)

/-- `findTag` consumes at least one character. -/
theorem findTag_length {l l2 : List Char} (h : findTag l = some l2) :
    l2.length < l.length := by
  cases l with
  | nil => exact absurd h (by simp [findTag])
  | cons c rest =>
    by_cases hc : c = '>'
    · simp [findTag, hc] at h
    · simp only [findTag, hc, if_false] at h
      exact Nat.lt_succ_of_lt (skipToClose_length h)

/-- Model of `re.sub(r"<[^>]+>", " ", decoded)` in `cleanLabelText`:
scan left to right, replacing each leftmost match of the tag pattern with
one space. -/
def removeTags : List Char → List Char
  | [] => []
  | c :: rest =>
    if c = '<' then
      match h : findTag rest with
      | some rest2 => ' ' :: removeTags rest2
      | none => c :: removeTags rest
    else c :: removeTags rest
termination_by l => l.length
decreasing_by
  · exact Nat.lt_succ_of_lt (findTag_length h)
  · simp
  · simp

/-- `cleanLabelText` of both scripts: decode HTML entities, replace every
tag-pattern match with a space, and strip the ends.  (The scripts return
`""` for `None`; the model works on the string domain.) -/
def cleanLabelText (s : String) : String :=
  ⟨pyStrip (removeTags (htmlUnescape s.data))⟩

/-- A substring matching the tag pattern `<[^>]+>`: an occurrence of
`<`, one or more non-`>` characters, then `>`. -/
def HasTag (l : List Char) : Prop :=
  ∃ a w b, l = a ++ '<' :: (w ++ '>' :: b) ∧ w ≠ [] ∧ '>' ∉ w

/-- Decidable scan for a substring matching the tag pattern. -/
def containsTag : List Char → Bool
  | [] => false
  | c :: rest => (c = '<' && (findTag rest).isSome) || containsTag rest

/-- `normalizeText` of `iStar-UVL.py`: strip, lower-case, transliterate
accents away with `unidecode`, then split on whitespace and rejoin with
single spaces.  (`None` input returns `""` in the script; the model works
on the string domain.) -/
def normalizeTextA (s : String) : String :=
  ⟨joinWords (pySplit (((pyStrip s.data).map lowerChar).flatMap unidecodeChar))⟩

/-- `normalizeText` of `istar-uvl.py`: strip, lower-case, decompose into
NFD, drop the nonspacing marks (category `Mn`), then split on whitespace
and rejoin with single spaces. -/
def normalizeTextB (s : String) : String :=
  ⟨joinWords (pySplit ((((pyStrip s.data).map lowerChar).flatMap nfdChar).filter
    (fun c => !isMn c)))⟩

/-- Python `word.isalnum()` on a word given as a character list: nonempty
and every character alphanumeric. -/
def pyStrIsAlnum (w : List Char) : Bool := !w.isEmpty && w.all pyIsAlnum

/-- Python `word.capitalize()`: titlecase the first character, lower-case
the rest. -/
def pyCapitalize (w : List Char) : List Char :=
  match w with
  | [] => []
  | c :: rest => upperChar c :: rest.map lowerChar

/-- `formatRootFeatureName` of `iStar-UVL.py`: on falsy input (`None` or
`""`) return `"RootGoal"`; otherwise clean the HTML, normalize, break the
normalized text at underscores and whitespace, keep the fully
alphanumeric words capitalized, and join them; `"RootGoal"` again when
nothing survives. -/
def formatRootFeatureName (input : Option String) : String :=
  match input with
  | none => "RootGoal"
  | some s =>
    if s = "" then "RootGoal"
    else
      let cleaned := cleanLabelText s
      let normalized := normalizeTextA cleaned
      let words := pySplit (normalized.data.map (fun c => if c = '_' then ' ' else c))
      let capitalizedWords := (words.filter pyStrIsAlnum).map pyCapitalize
      let identifier := capitalizedWords.flatten
      if identifier.isEmpty then "RootGoal" else ⟨identifier⟩

/-- `convertTextToUvlIdentifier` of `istar-uvl.py`: `None` maps to
`"RootGoal"`; otherwise replace every character that is neither
alphanumeric nor space nor underscore by a space, replace underscores by
spaces, split on whitespace, keep the fully alphanumeric words
capitalized, and join them; `"RootGoal"` when no word survives. -/
def convertTextToUvlIdentifier (input : Option String) : String :=
  match input with
  | none => "RootGoal"
  | some s =>
    let cleanedCharacters :=
      s.data.map (fun c => if pyIsAlnum c || c = ' ' || c = '_' then c else ' ')
    let separatedText := cleanedCharacters.map (fun c => if c = '_' then ' ' else c)
    let words := ((pySplit separatedText).filter pyStrIsAlnum).map pyCapitalize
    if words.isEmpty then "RootGoal" else ⟨words.flatten⟩

/-- The identifier formatter as §4.3 of the spec words it (claim C3), for
comparison with the two source embeddings: null/empty input gives
`"RootGoal"`; otherwise punctuation becomes spaces, underscores become
spaces, the fully alphanumeric words are kept, capitalized and
concatenated, with `"RootGoal"` when zero words survive. -/
def specIdentifierFormatter (input : Option String) : String :=
  match input with
  | none => "RootGoal"
  | some s =>
    let replaced :=
      s.data.map (fun c => if !pyIsAlnum c && c ≠ ' ' && c ≠ '_' then ' ' else c)
    let underscoreFree := replaced.map (fun c => if c = '_' then ' ' else c)
    let kept := (pySplit underscoreFree).filter (fun w => !w.isEmpty && w.all pyIsAlnum)
    let ident := (kept.map pyCapitalize).flatten
    if kept.isEmpty then "RootGoal" else ⟨ident⟩

/-- Python-dict update on an association list: an existing key keeps its
position and gets the new value, a new key is appended.  Models
`mapping[normalizedKey] = normalizedFeature`. -/
def dictInsert (d : List (String × String)) (k v : String) :
    List (String × String) :=
  match d with
  | [] => [(k, v)]
  | (k0, v0) :: rest =>
    if k0 = k then (k0, v) :: rest else (k0, v0) :: dictInsert rest k v

/-- Python-dict lookup on an association list. -/
def dictGet (d : List (String × String)) (k : String) : Option String :=
  match d with
  | [] => none
  | (k0, v) :: rest => if k = k0 then some v else dictGet rest k

/-- The characters of the delimiter `"=>"`. -/
def arrowChars : List Char := ['=', '>']

/-- Occurrence of the character list `p` as a contiguous substring of
`l`; models Python's `p in s` on strings. -/
def isSubstrOf (p : List Char) : List Char → Bool
  | [] => p.isEmpty
  | c :: rest => p.isPrefixOf (c :: rest) || isSubstrOf p rest

/-- Python `line.split("=>", 1)`: the text before the first `=>` and the
text after it (the whole line and `[]` when there is no occurrence, a
case the scripts guard against). -/
def splitArrow : List Char → List Char × List Char
  | [] => ([], [])
  | c :: rest =>
    if c = '=' ∧ rest.head? = some '>' then ([], rest.tail)
    else ((c :: (splitArrow rest).1), (splitArrow rest).2)

/-- One line of `loadMappingFile` in `iStar-UVL.py`: strip the line; the
`is None` test of the script never fires (Python `strip` returns a
string); skip the line unless it contains `=>`; otherwise split at the
first `=>`, normalize the key and trim the feature, and store them. -/
def lineStepA (d : List (String × String)) (line : String) :
    List (String × String) :=
  let cleanedLine := pyStripStr line
  if isSubstrOf arrowChars cleanedLine.data then
    dictInsert d (normalizeTextA ⟨(splitArrow cleanedLine.data).1⟩)
      (pyStripStr ⟨(splitArrow cleanedLine.data).2⟩)
  else d

/-- `loadMappingFile` of `iStar-UVL.py` on the lines of an opened file. -/
def loadMappingFileLinesA (ls : List String) : List (String × String) :=
  ls.foldl lineStepA []

/-- One line of `loadMappingFile` in `istar-uvl.py`: skip the line when
its stripped form is empty, starts with `#`, or lacks `=>`; otherwise
split the raw line at the first `=>`, normalize the key and trim the
feature, and store them. -/
def lineStepB (d : List (String × String)) (line : String) :
    List (String × String) :=
  let cleanedLine := pyStripStr line
  if !cleanedLine.data.isEmpty && !(['#'].isPrefixOf cleanedLine.data) &&
      isSubstrOf arrowChars cleanedLine.data then
    dictInsert d (normalizeTextB ⟨(splitArrow line.data).1⟩)
      (pyStripStr ⟨(splitArrow line.data).2⟩)
  else d

/-- `loadMappingFile` of `istar-uvl.py` on the lines of an opened file
(the `FileNotFoundError` path is modelled by `loadMappingFileB`). -/
def loadMappingFileLinesB (ls : List String) : List (String × String) :=
  ls.foldl lineStepB []

/-- The entry one line of `iStar-UVL.py`'s `loadMappingFile` produces:
some pair exactly for lines whose stripped form contains `=>` (comment
lines included), the key normalized and the feature trimmed. -/
def acceptedEntryA (line : String) : Option (String × String) :=
  let cleanedLine := pyStripStr line
  if isSubstrOf arrowChars cleanedLine.data then
    some (normalizeTextA ⟨(splitArrow cleanedLine.data).1⟩,
      pyStripStr ⟨(splitArrow cleanedLine.data).2⟩)
  else none

/-- The accepted `(key, feature)` pairs of a source, in line order, for
`iStar-UVL.py`. -/
def acceptedEntriesA (ls : List String) : List (String × String) :=
  ls.filterMap acceptedEntryA

/-- The entry one line produces as §4.4 of the spec words it (claim C5):
an entry only for a line containing the `=>` delimiter, with blank lines
and `#`-comment lines skipped; the key part normalized via the text
normalizer and the feature part trimmed but not case-normalized.  Key
and feature are read off the stripped line. -/
def acceptedEntryB (line : String) : Option (String × String) :=
  let cleanedLine := pyStripStr line
  if !cleanedLine.data.isEmpty && !(['#'].isPrefixOf cleanedLine.data) &&
      isSubstrOf arrowChars cleanedLine.data then
    some (normalizeTextB ⟨(splitArrow cleanedLine.data).1⟩,
      pyStripStr ⟨(splitArrow cleanedLine.data).2⟩)
  else none

/-- The accepted `(key, feature)` pairs of a source, in line order, for
`istar-uvl.py`. -/
def acceptedEntriesB (ls : List String) : List (String × String) :=
  ls.filterMap acceptedEntryB

/-- A configuration directory, modelled as the optional line contents of
the four mapping files; `none` models a missing file (whose `open`
raises `FileNotFoundError`). -/
structure ConfigDir where
  algorithms : Option (List String)
  nfrs : Option (List String)
  backend : Option (List String)
  integration : Option (List String)

/-- The four keyword tables, one per category (the value of
`loadAllMappingFiles`). -/
structure MappingDicts where
  algorithms : List (String × String)
  nfrs : List (String × String)
  backend : List (String × String)
  integration : List (String × String)
deriving DecidableEq

/-- `loadMappingFile` of `iStar-UVL.py` at the file boundary: the script
opens the file with no handler, so a missing file raises
(`Except.error`). -/
def loadMappingFileA (source : Option (List String)) :
    Except Unit (List (String × String)) :=
  match source with
  | none => Except.error ()
  | some ls => Except.ok (loadMappingFileLinesA ls)

/-- `loadAllMappingFiles` of `iStar-UVL.py`: load the four categories in
order; a raised `FileNotFoundError` propagates. -/
def loadAllMappingFilesA (d : ConfigDir) : Except Unit MappingDicts := do
  let a ← loadMappingFileA d.algorithms
  let n ← loadMappingFileA d.nfrs
  let b ← loadMappingFileA d.backend
  let i ← loadMappingFileA d.integration
  return ⟨a, n, b, i⟩

/-- `loadMappingFile` of `istar-uvl.py` at the file boundary: a missing
file is caught (`except FileNotFoundError: pass`) and yields the empty
table. -/
def loadMappingFileB (source : Option (List String)) : List (String × String) :=
  match source with
  | none => []
  | some ls => loadMappingFileLinesB ls

/-- `loadAllMappingFiles` of `istar-uvl.py`. -/
def loadAllMappingFilesB (d : ConfigDir) : MappingDicts :=
  ⟨loadMappingFileB d.algorithms, loadMappingFileB d.nfrs,
   loadMappingFileB d.backend, loadMappingFileB d.integration⟩

/-- One parsed diagram object (an element of `parseIStarXml`'s result):
the lower-cased `type`, the cleaned `label` and its normalized form. -/
structure IStarObject where
  type : String
  label : String
  norm : String

/-- The inner loop body of `mapIStarObjectsToFeatures`: scan one
category's table against one object's normalized label, adding the
feature of every keyword contained in it. -/
def scanDict (txt : String) (d : List (String × String)) (acc : Finset String) :
    Finset String :=
  d.foldl (fun s kf => if isSubstrOf kf.1.data txt.data then insert kf.2 s else s)
    acc

/-- The four category sets accumulated by `mapIStarObjectsToFeatures`
over all objects, before `applyDefaultValues` and sorting. -/
def classifySets (objs : List IStarObject) (m : MappingDicts) :
    Finset String × Finset String × Finset String × Finset String :=
  objs.foldl
    (fun acc obj =>
      (scanDict obj.norm m.algorithms acc.1,
       scanDict obj.norm m.nfrs acc.2.1,
       scanDict obj.norm m.backend acc.2.2.1,
       scanDict obj.norm m.integration acc.2.2.2))
    (∅, ∅, ∅, ∅)

/-- `applyDefaultValues` of both scripts: when no backend was detected
and the backend table can output the literal feature `"Hardware"`, add
it; symmetrically `"Middleware"` for integrations. -/
def applyDefaultValues (backs integrs : Finset String) (m : MappingDicts) :
    Finset String × Finset String :=
  let backs2 :=
    if backs.card = 0 ∧ "Hardware" ∈ m.backend.map Prod.snd
    then insert "Hardware" backs else backs
  let integrs2 :=
    if integrs.card = 0 ∧ "Middleware" ∈ m.integration.map Prod.snd
    then insert "Middleware" integrs else integrs
  (backs2, integrs2)

/-- `mapIStarObjectsToFeatures` of both scripts: accumulate the four
category sets, apply the default values to backends and integrations,
and return each set as a sorted list. -/
def mapIStarObjectsToFeatures (objs : List IStarObject) (m : MappingDicts) :
    List String × List String × List String × List String :=
  let s := classifySets objs m
  let d := applyDefaultValues s.2.2.1 s.2.2.2 m
  (s.1.sort (· ≤ ·), s.2.1.sort (· ≤ ·), d.1.sort (· ≤ ·), d.2.sort (· ≤ ·))

/-- The lines `buildUvlModel` appends, in order (both scripts line for
line; `\x7b` and `\x7d` are the brace characters). -/
def buildUvlLines (rootFeature : String) (algos nfrs backs integrs : List String) :
    List String :=
  let l1 : List String := ["features \x7b", "  " ++ rootFeature ++ " \x7b"]
  let l2 := l1 ++ (if algos.length > 0 then
    ["    Algorithm \x7b"] ++ algos.map (fun a => "      " ++ a) ++ ["    \x7d"]
    else [])
  let l3 := l2 ++ (if backs.length > 0 then
    ["    Backend \x7b"] ++ backs.map (fun b => "      " ++ b) ++ ["    \x7d"]
    else [])
  let l4 := l3 ++ (if integrs.length > 0 then
    ["    IntegrationModel \x7b"] ++ integrs.map (fun i => "      " ++ i) ++
      ["    \x7d"]
    else [])
  let l5 := l4 ++ nfrs.map (fun n => "    " ++ n)
  let l6 := l5 ++ ["  \x7d", "\x7d", ""]
  l6 ++ (if algos.length > 0 ∧ "Precision" ∈ nfrs then
    ["constraints \x7b"] ++
      algos.map (fun a => "  " ++ a ++ " requires Precision") ++ ["\x7d"]
    else [])

/-- Python `"\n".join(lines)` on the characters of the lines. -/
def joinLines : List String → List Char
  | [] => []
  | [l] => l.data
  | l :: ls => l.data ++ '\n' :: joinLines ls

/-- `buildUvlModel` of both scripts: the lines joined with `"\n"`. -/
def buildUvlModel (rootFeature : String) (algos nfrs backs integrs : List String) :
    String :=
  ⟨joinLines (buildUvlLines rootFeature algos nfrs backs integrs)⟩

/-- The feature-tree block of `buildUvlModel` — everything before the
optional constraints block — as §4.7 of the spec describes it (claims C6
and C9): two-space indent per nesting level, category sub-blocks only
when non-empty, NFR lines as direct children. -/
def uvlFeatureLines (rootFeature : String) (algos nfrs backs integrs : List String) :
    List String :=
  ["features \x7b", "  " ++ rootFeature ++ " \x7b"] ++
  (if algos = [] then [] else
    "    Algorithm \x7b" :: algos.map (fun a => "      " ++ a) ++ ["    \x7d"]) ++
  (if backs = [] then [] else
    "    Backend \x7b" :: backs.map (fun b => "      " ++ b) ++ ["    \x7d"]) ++
  (if integrs = [] then [] else
    "    IntegrationModel \x7b" :: integrs.map (fun i => "      " ++ i) ++
      ["    \x7d"]) ++
  nfrs.map (fun n => "    " ++ n) ++ ["  \x7d", "\x7d", ""]

/-- A configuration directory with every missing mapping file replaced
by a present-but-empty one. -/
def fillMissing (d : ConfigDir) : ConfigDir :=
  ⟨some (d.algorithms.getD []), some (d.nfrs.getD []),
   some (d.backend.getD []), some (d.integration.getD [])⟩

/-- `takeWhile` stops exactly at the first failing element. -/
theorem takeWhile_append_stop {α : Type} (p : α → Bool) (x : α) (t : List α) :
    ∀ w : List α, (∀ c ∈ w, p c = true) → p x = false →
      (w ++ x :: t).takeWhile p = w := by
  intro w
  induction w with
  | nil => intro _ hx; simp [List.takeWhile_cons, hx]
  | cons c w2 ih =>
    intro hw hx
    have hc : p c = true := hw c (by simp)
    simp only [List.cons_append, List.takeWhile_cons, hc, if_true,
      List.cons.injEq, true_and]
    exact ih (fun d hd => hw d (List.mem_cons_of_mem _ hd)) hx

/-- `dropWhile` drops exactly up to the first failing element. -/
theorem dropWhile_append_stop {α : Type} (p : α → Bool) (x : α) (t : List α) :
    ∀ w : List α, (∀ c ∈ w, p c = true) → p x = false →
      (w ++ x :: t).dropWhile p = x :: t := by
  intro w
  induction w with
  | nil => intro _ hx; simp [List.dropWhile_cons, hx]
  | cons c w2 ih =>
    intro hw hx
    have hc : p c = true := hw c (by simp)
    simp only [List.cons_append, List.dropWhile_cons, hc, if_true]
    exact ih (fun d hd => hw d (List.mem_cons_of_mem _ hd)) hx

/-- `takeWhile` takes everything when every element satisfies `p`. -/
theorem takeWhile_eq_self_of_all {α : Type} (p : α → Bool) :
    ∀ l : List α, (∀ c ∈ l, p c = true) → l.takeWhile p = l := by
  intro l
  induction l with
  | nil => intro _; rfl
  | cons c w2 ih =>
    intro hw
    simp only [List.takeWhile_cons, hw c (by simp), if_true, List.cons.injEq,
      true_and]
    exact ih (fun d hd => hw d (List.mem_cons_of_mem _ hd))

/-- `dropWhile` drops everything when every element satisfies `p`. -/
theorem dropWhile_eq_nil_of_all {α : Type} (p : α → Bool) :
    ∀ l : List α, (∀ c ∈ l, p c = true) → l.dropWhile p = [] := by
  intro l
  induction l with
  | nil => intro _; rfl
  | cons c w2 ih =>
    intro hw
    simp only [List.dropWhile_cons, hw c (by simp), if_true]
    exact ih (fun d hd => hw d (List.mem_cons_of_mem _ hd))

/-- The words `pySplit` yields are nonempty and whitespace-free. -/
theorem pySplit_words (l : List Char) :
    ∀ w ∈ pySplit l, w ≠ [] ∧ ∀ c ∈ w, pyIsSpace c = false := by
  induction l using pySplit.induct with
  | case1 => intro w hw; exact absurd hw (by simp [pySplit])
  | case2 c rest hc ih =>
    intro w hw
    rw [pySplit, if_pos hc] at hw
    exact ih w hw
  | case3 c rest hc ih =>
    intro w hw
    rw [pySplit, if_neg hc] at hw
    rcases List.mem_cons.mp hw with h | h
    · subst h
      refine ⟨by simp, ?_⟩
      intro d hd
      rcases List.mem_cons.mp hd with h | h
      · subst h; exact Bool.of_not_eq_true hc
      · have := List.mem_takeWhile_imp h
        simpa using this
    · exact ih w h

/-- Every character of a `pySplit` word is a character of the input. -/
theorem pySplit_chars (l : List Char) :
    ∀ w ∈ pySplit l, ∀ c ∈ w, c ∈ l := by
  induction l using pySplit.induct with
  | case1 => intro w hw; exact absurd hw (by simp [pySplit])
  | case2 c rest hc ih =>
    intro w hw d hd
    rw [pySplit, if_pos hc] at hw
    exact List.mem_cons_of_mem _ (ih w hw d hd)
  | case3 c rest hc ih =>
    intro w hw d hd
    rw [pySplit, if_neg hc] at hw
    rcases List.mem_cons.mp hw with h | h
    · subst h
      rcases List.mem_cons.mp hd with h | h
      · subst h; simp
      · exact List.mem_cons_of_mem _
          ((List.takeWhile_sublist _).mem h)
    · exact List.mem_cons_of_mem _ ((List.dropWhile_sublist _).mem (ih w h d hd))

/-- Splitting the rejoined words gives the words back, when they are
nonempty and whitespace-free. -/
theorem pySplit_joinWords :
    ∀ ws : List (List Char),
      (∀ w ∈ ws, w ≠ [] ∧ ∀ c ∈ w, pyIsSpace c = false) →
      pySplit (joinWords ws) = ws := by
  intro ws
  induction ws with
  | nil =>
    intro _
    show pySplit [] = []
    rw [pySplit]
  | cons w ws2 ih =>
    intro hws
    obtain ⟨hne, hnosp⟩ := hws w (by simp)
    obtain ⟨c, w2, rfl⟩ := List.exists_cons_of_ne_nil hne
    have hc : pyIsSpace c = false := hnosp c (by simp)
    have hw2 : ∀ d ∈ w2, (fun d => !pyIsSpace d) d = true := by
      intro d hd; simp [hnosp d (List.mem_cons_of_mem _ hd)]
    cases ws2 with
    | nil =>
      show pySplit (c :: w2) = [c :: w2]
      rw [pySplit, if_neg (by simp [hc])]
      rw [takeWhile_eq_self_of_all _ w2 hw2, dropWhile_eq_nil_of_all _ w2 hw2]
      rw [pySplit]
    | cons w3 ws3 =>
      show pySplit ((c :: w2) ++ ' ' :: joinWords (w3 :: ws3)) = _
      rw [List.cons_append, pySplit, if_neg (by simp [hc])]
      rw [takeWhile_append_stop _ ' ' _ w2 hw2 (by simp [pyIsSpace]),
        dropWhile_append_stop _ ' ' _ w2 hw2 (by simp [pyIsSpace])]
      have : pySplit (' ' :: joinWords (w3 :: ws3)) = pySplit (joinWords (w3 :: ws3)) := by
        rw [pySplit, if_pos (by simp [pyIsSpace])]
      rw [this, ih (fun u hu => hws u (List.mem_cons_of_mem _ hu))]

/-- `joinWords` of nonempty words is nonempty. -/
theorem joinWords_ne_nil :
    ∀ ws : List (List Char), ws ≠ [] → (∀ w ∈ ws, w ≠ []) →
      joinWords ws ≠ [] := by
  intro ws
  match ws with
  | [] => intro h _; exact absurd rfl h
  | [w] => intro _ hws; exact hws w (by simp)
  | w :: w2 :: ws3 =>
    intro _ hws
    show w ++ ' ' :: joinWords (w2 :: ws3) ≠ []
    exact List.append_ne_nil_of_right_ne_nil _ (by simp)

/-- The last character of `joinWords` over good words is not whitespace. -/
theorem joinWords_getLast (ws : List (List Char))
    (hws : ∀ w ∈ ws, w ≠ [] ∧ ∀ c ∈ w, pyIsSpace c = false) :
    ∀ c, (joinWords ws).getLast? = some c → pyIsSpace c = false := by
  induction ws with
  | nil => intro c hc; exact absurd hc (by simp [joinWords])
  | cons w ws2 ih =>
    intro c hc
    cases ws2 with
    | nil =>
      obtain ⟨hne, hnosp⟩ := hws w (by simp)
      have : c ∈ w := by
        have := List.getLast?_eq_getLast w hne
        rw [show joinWords [w] = w from rfl, this] at hc
        simp only [Option.some.injEq] at hc
        rw [← hc]
        exact List.getLast_mem hne
      exact hnosp c this
    | cons w3 ws3 =>
      have hJ : joinWords (w3 :: ws3) ≠ [] :=
        joinWords_ne_nil _ (by simp)
          (fun u hu => (hws u (List.mem_cons_of_mem _ hu)).1)
      have step : (joinWords (w :: w3 :: ws3)).getLast? =
          (joinWords (w3 :: ws3)).getLast? := by
        show (w ++ ' ' :: joinWords (w3 :: ws3)).getLast? = _
        rw [List.getLast?_append]
        have h2 : (' ' :: joinWords (w3 :: ws3)).getLast? =
            (joinWords (w3 :: ws3)).getLast? := by
          rw [show (' ' :: joinWords (w3 :: ws3)) = [' '] ++ joinWords (w3 :: ws3)
            from rfl, List.getLast?_append]
          cases hg : (joinWords (w3 :: ws3)).getLast? with
          | none => exact absurd (List.getLast?_eq_none_iff.mp hg) hJ
          | some d => rfl
        rw [h2]
        cases hg : (joinWords (w3 :: ws3)).getLast? with
        | none => exact absurd (List.getLast?_eq_none_iff.mp hg) hJ
        | some d => rfl
      rw [step] at hc
      exact ih (fun u hu => hws u (List.mem_cons_of_mem _ hu)) c hc

/-- `dropWhile` is the identity when the head does not satisfy `p`. -/
theorem dropWhile_eq_self_of_head {α : Type} (p : α → Bool) (l : List α)
    (h : ∀ c, l.head? = some c → p c = false) : l.dropWhile p = l := by
  cases l with
  | nil => rfl
  | cons c rest => simp [List.dropWhile_cons, h c rfl]

/-- Stripping `joinWords` of good words changes nothing. -/
theorem pyStrip_joinWords (ws : List (List Char))
    (hws : ∀ w ∈ ws, w ≠ [] ∧ ∀ c ∈ w, pyIsSpace c = false) :
    pyStrip (joinWords ws) = joinWords ws := by
  have h1 : (joinWords ws).dropWhile pyIsSpace = joinWords ws := by
    apply dropWhile_eq_self_of_head
    intro c hc
    cases ws with
    | nil => simp [joinWords] at hc
    | cons w ws2 =>
      obtain ⟨hne, hnosp⟩ := hws w (by simp)
      obtain ⟨c0, w2, rfl⟩ := List.exists_cons_of_ne_nil hne
      have : (joinWords ((c0 :: w2) :: ws2)).head? = some c0 := by
        cases ws2 with
        | nil => rfl
        | cons w3 ws3 => rfl
      rw [this] at hc
      simp only [Option.some.injEq] at hc
      rw [← hc]
      exact hnosp c0 (by simp)
  have h2 : (joinWords ws).reverse.dropWhile pyIsSpace = (joinWords ws).reverse := by
    apply dropWhile_eq_self_of_head
    intro c hc
    rw [List.head?_reverse] at hc
    exact joinWords_getLast ws hws c hc
  unfold pyStrip
  rw [h1, h2, List.reverse_reverse]

/-- `lowerChar` is idempotent: its table maps onto characters the table
leaves alone. -/
theorem lowerChar_idem (c : Char) : lowerChar (lowerChar c) = lowerChar c := by
  cases h : tblGet lowerTbl c with
  | none =>
    have hc : lowerChar c = c := by unfold lowerChar; rw [h]; rfl
    rw [hc, hc]
  | some v =>
    have hc : lowerChar c = v := by unfold lowerChar; rw [h]; rfl
    have hmem : (c, v) ∈ lowerTbl := tblGet_mem h
    have hall : lowerTbl.all (fun p => (tblGet lowerTbl p.2).isNone) = true := by
      decide
    have hv : (tblGet lowerTbl v).isNone = true := by
      have := List.all_eq_true.mp hall _ hmem
      exact this
    rw [hc]
    unfold lowerChar
    cases hg : tblGet lowerTbl v with
    | none => rfl
    | some w => rw [hg] at hv; simp at hv

/-- Every character `unidecodeChar` produces from a lower-cased
character is itself lower-case-fixed and `unidecodeChar`-fixed. -/
theorem uniGood (c : Char) :
    ∀ d ∈ unidecodeChar (lowerChar c),
      lowerChar d = d ∧ unidecodeChar d = [d] := by
  intro d hd
  have hE : lowerChar (lowerChar c) = lowerChar c := lowerChar_idem c
  by_cases hascii : (lowerChar c).toNat < 128
  · rw [unidecodeChar, if_pos hascii] at hd
    simp only [List.mem_singleton] at hd
    subst hd
    exact ⟨hE, by rw [unidecodeChar, if_pos hascii]⟩
  · rw [unidecodeChar, if_neg hascii] at hd
    cases h : tblGet uniTbl (lowerChar c) with
    | none => rw [h] at hd; simp at hd
    | some s =>
      rw [h] at hd
      simp only [Option.getD_some] at hd
      have hmem : (lowerChar c, s) ∈ uniTbl := tblGet_mem h
      have hall : uniTbl.all
          (fun p => p.2.all (fun d => decide (d.toNat < 128) && (lowerChar d == d))) =
          true := by decide
      have hrow := List.all_eq_true.mp hall _ hmem
      have hcell := List.all_eq_true.mp hrow _ hd
      simp only [Bool.and_eq_true, decide_eq_true_eq, beq_iff_eq] at hcell
      exact ⟨hcell.2, by rw [unidecodeChar, if_pos hcell.1]⟩

/-- Every character `nfdDropMn` produces from a lower-cased character is
itself lower-case-fixed and `nfdDropMn`-fixed. -/
theorem nfdGood (c : Char) :
    ∀ d ∈ nfdDropMn (lowerChar c), lowerChar d = d ∧ nfdDropMn d = [d] := by
  intro d hd
  have hE : lowerChar (lowerChar c) = lowerChar c := lowerChar_idem c
  unfold nfdDropMn at hd
  rw [List.mem_filter] at hd
  obtain ⟨hdn, hmn⟩ := hd
  cases h : tblGet nfdTbl (lowerChar c) with
  | none =>
    rw [nfdChar, h] at hdn
    simp only [Option.getD_none, List.mem_singleton] at hdn
    subst hdn
    refine ⟨hE, ?_⟩
    unfold nfdDropMn
    rw [nfdChar, h]
    simp only [Option.getD_none]
    rw [List.filter_cons, if_pos hmn]
    rfl
  | some s =>
    rw [nfdChar, h] at hdn
    simp only [Option.getD_some] at hdn
    have hmem : (lowerChar c, s) ∈ nfdTbl := tblGet_mem h
    have hall : nfdTbl.all (fun p => p.2.all
        (fun d => isMn d || ((lowerChar d == d) && (tblGet nfdTbl d).isNone))) =
        true := by decide
    have hrow := List.all_eq_true.mp hall _ hmem
    have hcell := List.all_eq_true.mp hrow _ hdn
    rw [Bool.or_eq_true] at hcell
    cases hcell with
    | inl hbad => rw [hbad] at hmn; simp at hmn
    | inr hgood =>
      simp only [Bool.and_eq_true, beq_iff_eq, Option.isNone_iff_eq_none] at hgood
      refine ⟨hgood.1, ?_⟩
      unfold nfdDropMn
      rw [nfdChar, hgood.2]
      simp only [Option.getD_none]
      rw [List.filter_cons, if_pos hmn]
      rfl

/-- A character of `joinWords ws` is a space or a character of a word. -/
theorem mem_joinWords :
    ∀ ws : List (List Char), ∀ d ∈ joinWords ws, d = ' ' ∨ ∃ w ∈ ws, d ∈ w := by
  intro ws
  match ws with
  | [] => intro d hd; exact absurd hd (by simp [joinWords])
  | [w] => intro d hd; exact Or.inr ⟨w, by simp, hd⟩
  | w :: w2 :: ws3 =>
    intro d hd
    have : d ∈ w ++ ' ' :: joinWords (w2 :: ws3) := hd
    rcases List.mem_append.mp this with h | h
    · exact Or.inr ⟨w, by simp, h⟩
    · rcases List.mem_cons.mp h with h | h
      · exact Or.inl h
      · rcases mem_joinWords (w2 :: ws3) d h with h | ⟨u, hu, hdu⟩
        · exact Or.inl h
        · exact Or.inr ⟨u, List.mem_cons_of_mem _ hu, hdu⟩

/-- `map` by a function fixing every member is the identity. -/
theorem map_eq_self_of {α : Type} (f : α → α) :
    ∀ l : List α, (∀ c ∈ l, f c = c) → l.map f = l := by
  intro l
  induction l with
  | nil => intro _; rfl
  | cons c rest ih =>
    intro h
    simp only [List.map_cons, h c (by simp), List.cons.injEq, true_and]
    exact ih (fun d hd => h d (List.mem_cons_of_mem _ hd))

/-- `flatMap` by a function sending every member to its singleton is the
identity. -/
theorem flatMap_eq_self_of {α : Type} (f : α → List α) :
    ∀ l : List α, (∀ c ∈ l, f c = [c]) → l.flatMap f = l := by
  intro l
  induction l with
  | nil => intro _; rfl
  | cons c rest ih =>
    intro h
    rw [List.flatMap_cons, h c (by simp),
      ih (fun d hd => h d (List.mem_cons_of_mem _ hd))]
    rfl

/-- The strip–lower–transliterate–collapse pipeline shared by the two
`normalizeText` implementations is idempotent, whenever the character
step `f` sends lower-cased characters to `f`- and lower-fixed ones and
fixes the space. -/
theorem normPipeline_idem (f : Char → List Char)
    (hf : ∀ c, ∀ d ∈ f (lowerChar c), lowerChar d = d ∧ f d = [d])
    (hsp : f ' ' = [' ']) (l : List Char) :
    joinWords (pySplit (((pyStrip (joinWords (pySplit
        (((pyStrip l).map lowerChar).flatMap f)))).map lowerChar).flatMap f)) =
      joinWords (pySplit (((pyStrip l).map lowerChar).flatMap f)) := by
  set u := ((pyStrip l).map lowerChar).flatMap f with hu
  set ws := pySplit u with hws
  have hgood : ∀ w ∈ ws, w ≠ [] ∧ ∀ c ∈ w, pyIsSpace c = false :=
    pySplit_words u
  have h1 : pyStrip (joinWords ws) = joinWords ws := pyStrip_joinWords ws hgood
  have hchar : ∀ d ∈ joinWords ws, lowerChar d = d ∧ f d = [d] := by
    intro d hd
    rcases mem_joinWords ws d hd with h | ⟨w, hw, hdw⟩
    · subst h
      exact ⟨by decide, hsp⟩
    · have hdu : d ∈ u := pySplit_chars u w hw d hdw
      rw [hu] at hdu
      rcases List.mem_flatMap.mp hdu with ⟨e, he, hde⟩
      rcases List.mem_map.mp he with ⟨c0, _, rfl⟩
      exact hf c0 d hde
  have h2 : (joinWords ws).map lowerChar = joinWords ws :=
    map_eq_self_of _ _ (fun d hd => (hchar d hd).1)
  have h3 : (joinWords ws).flatMap f = joinWords ws :=
    flatMap_eq_self_of _ _ (fun d hd => (hchar d hd).2)
  rw [h1, h2, h3, pySplit_joinWords ws hgood]

/-- `filter` distributes over `flatMap`. -/
theorem filter_flatMap {α β : Type} (l : List α) (g : α → List β) (q : β → Bool) :
    (l.flatMap g).filter q = l.flatMap (fun c => (g c).filter q) := by
  induction l with
  | nil => rfl
  | cons c rest ih =>
    rw [List.flatMap_cons, List.flatMap_cons, List.filter_append, ih]

/-- C8: for every input string the text normalizer is idempotent —
`normalize(normalize(s)) == normalize(s)` — both for the
`unidecode`-based implementation of `iStar-UVL.py` (`normalizeTextA`)
and for the Unicode-decomposition-based implementation of
`istar-uvl.py` (`normalizeTextB`). -/
theorem c8_normalize_idempotent (s : String) :
    normalizeTextA (normalizeTextA s) = normalizeTextA s ∧
    normalizeTextB (normalizeTextB s) = normalizeTextB s := by
  constructor
  · unfold normalizeTextA
    exact congrArg String.mk
      (normPipeline_idem unidecodeChar uniGood (by decide) s.data)
  · unfold normalizeTextB
    apply congrArg String.mk
    show joinWords (pySplit ((((pyStrip (joinWords (pySplit
        ((((pyStrip s.data).map lowerChar).flatMap nfdChar).filter
          (fun c => !isMn c))))).map lowerChar).flatMap nfdChar).filter
            (fun c => !isMn c))) = _
    rw [filter_flatMap, filter_flatMap]
    exact normPipeline_idem nfdDropMn nfdGood (by decide) s.data

/-- A successful `skipToClose` certifies a `>` in its input. -/
theorem skipToClose_mem : ∀ {l l2 : List Char},
    skipToClose l = some l2 → '>' ∈ l := by
  intro l
  induction l with
  | nil => intro l2 h; exact absurd h (by simp [skipToClose])
  | cons c rest ih =>
    intro l2 h
    by_cases hc : c = '>'
    · simp [hc]
    · simp only [skipToClose, hc, if_false] at h
      exact List.mem_cons_of_mem _ (ih h)

/-- With a `>` in its input, `skipToClose` succeeds. -/
theorem skipToClose_isSome_of_mem : ∀ {l : List Char},
    '>' ∈ l → (skipToClose l).isSome = true := by
  intro l
  induction l with
  | nil => intro h; simp at h
  | cons c rest ih =>
    intro h
    by_cases hc : c = '>'
    · simp [skipToClose, hc]
    · rcases List.mem_cons.mp h with h2 | h2
      · exact absurd h2.symm hc
      · simp only [skipToClose, hc, if_false]
        exact ih h2

/-- A successful `findTag` certifies a `>` in its input. -/
theorem findTag_mem {l l2 : List Char} (h : findTag l = some l2) : '>' ∈ l := by
  cases l with
  | nil => exact absurd h (by simp [findTag])
  | cons c rest =>
    by_cases hc : c = '>'
    · simp [findTag, hc] at h
    · simp only [findTag, hc, if_false] at h
      exact List.mem_cons_of_mem _ (skipToClose_mem h)

/-- `removeTags` on the empty input. -/
theorem removeTags_nil : removeTags [] = [] := by rw [removeTags]

/-- `removeTags` when the head opens a match of the tag pattern. -/
theorem removeTags_cons_some {rest rest2 : List Char}
    (h : findTag rest = some rest2) :
    removeTags ('<' :: rest) = ' ' :: removeTags rest2 := by
  rw [removeTags]
  split
  · split
    · rename_i rest3 hf
      rw [h] at hf
      cases hf
      rfl
    · rename_i hf
      rw [h] at hf
      cases hf
  · rename_i hne
    exact absurd rfl hne

/-- `removeTags` when the head is a `<` opening no match. -/
theorem removeTags_cons_none {rest : List Char} (h : findTag rest = none) :
    removeTags ('<' :: rest) = '<' :: removeTags rest := by
  rw [removeTags]
  split
  · split
    · rename_i rest3 hf
      rw [h] at hf
      cases hf
    · rfl
  · rename_i hne
    exact absurd rfl hne

/-- `removeTags` on a head other than `<`. -/
theorem removeTags_cons_ne {c : Char} {rest : List Char} (h : c ≠ '<') :
    removeTags (c :: rest) = c :: removeTags rest := by
  rw [removeTags]
  simp [h]

/-- `skipToClose` returns a suffix of its input. -/
theorem skipToClose_suffix : ∀ {m m2 : List Char},
    skipToClose m = some m2 → m2 <:+ m := by
  intro m
  induction m with
  | nil => intro m2 hm; simp [skipToClose] at hm
  | cons e m3 ihm =>
    intro m2 hm
    by_cases he : e = '>'
    · simp only [skipToClose, he, if_true, Option.some.injEq] at hm
      subst hm
      exact List.suffix_cons _ _
    · simp only [skipToClose, he, if_false] at hm
      exact (ihm hm).trans (List.suffix_cons _ _)

/-- `findTag` returns a suffix of its input. -/
theorem findTag_suffix {m m2 : List Char} (h : findTag m = some m2) :
    m2 <:+ m := by
  cases m with
  | nil => simp [findTag] at h
  | cons c rest =>
    by_cases hc : c = '>'
    · simp [findTag, hc] at h
    · simp only [findTag, hc, if_false] at h
      exact (skipToClose_suffix h).trans (List.suffix_cons _ _)

/-- Every character of `removeTags l` is a character of `l` or the
replacement space. -/
theorem removeTags_chars : ∀ l : List Char, ∀ d ∈ removeTags l, d ∈ l ∨ d = ' ' := by
  intro l
  induction l using removeTags.induct with
  | case1 => intro d hd; rw [removeTags_nil] at hd; simp at hd
  | case2 rest rest2 hf ih =>
    intro d hd
    rw [removeTags_cons_some hf] at hd
    rcases List.mem_cons.mp hd with h2 | h2
    · exact Or.inr h2
    · rcases ih d h2 with h3 | h3
      · exact Or.inl
          (List.mem_cons_of_mem _ ((findTag_suffix hf).sublist.mem h3))
      · exact Or.inr h3
  | case3 rest hf ih =>
    intro d hd
    rw [removeTags_cons_none hf] at hd
    rcases List.mem_cons.mp hd with h2 | h2
    · exact Or.inl (by simp [h2])
    · rcases ih d h2 with h3 | h3
      · exact Or.inl (List.mem_cons_of_mem _ h3)
      · exact Or.inr h3
  | case4 c rest h ih =>
    intro d hd
    rw [removeTags_cons_ne h] at hd
    rcases List.mem_cons.mp hd with h2 | h2
    · exact Or.inl (by simp [h2])
    · rcases ih d h2 with h3 | h3
      · exact Or.inl (List.mem_cons_of_mem _ h3)
      · exact Or.inr h3

/-- `removeTags` introduces no `>`. -/
theorem removeTags_no_gt {l : List Char} (h : '>' ∉ l) : '>' ∉ removeTags l := by
  intro hmem
  rcases removeTags_chars l '>' hmem with h2 | h2
  · exact h h2
  · simp at h2

/-- Without a `>` in the input, `findTag` fails. -/
theorem findTag_eq_none_of_no_gt {l : List Char} (h : '>' ∉ l) :
    findTag l = none := by
  cases hf : findTag l with
  | none => rfl
  | some l2 => exact absurd (findTag_mem hf) h

/-- The output of `removeTags` contains no match of the tag pattern:
every surviving `<` is followed at once by `>` or by no `>` at all. -/
theorem containsTag_removeTags : ∀ l : List Char,
    containsTag (removeTags l) = false := by
  intro l
  induction l using removeTags.induct with
  | case1 => rw [removeTags_nil]; rfl
  | case2 rest rest2 hf ih =>
    rw [removeTags_cons_some hf]
    simp only [containsTag, ih, Bool.or_false, Bool.and_eq_false_iff]
    left
    decide
  | case3 rest hf ih =>
    rw [removeTags_cons_none hf]
    simp only [containsTag, ih, Bool.or_false, Bool.and_eq_false_iff]
    right
    cases rest with
    | nil => rw [removeTags_nil]; simp [findTag]
    | cons c2 rest3 =>
      by_cases hc2 : c2 = '>'
      · subst hc2
        rw [removeTags_cons_ne (by decide)]
        simp [findTag]
      · simp only [findTag, hc2, if_false] at hf
        have hng : '>' ∉ (c2 :: rest3) := by
          intro hmem
          rcases List.mem_cons.mp hmem with h2 | h2
          · exact hc2 h2.symm
          · have := skipToClose_isSome_of_mem h2
            rw [hf] at this
            simp at this
        have := findTag_eq_none_of_no_gt (removeTags_no_gt hng)
        simp [this]
  | case4 c rest h ih =>
    rw [removeTags_cons_ne h]
    simp only [containsTag, ih, Bool.or_false, Bool.and_eq_false_iff]
    left
    simp [h]

/-- What a successful `skipToClose` consumed: a `>`-free prefix and the
closing `>`. -/
theorem skipToClose_decomp : ∀ {l l2 : List Char},
    skipToClose l = some l2 → ∃ w, l = w ++ '>' :: l2 ∧ '>' ∉ w := by
  intro l
  induction l with
  | nil => intro l2 h; simp [skipToClose] at h
  | cons c rest ih =>
    intro l2 h
    by_cases hc : c = '>'
    · subst hc
      simp only [skipToClose, if_true, Option.some.injEq] at h
      exact ⟨[], by rw [h]; rfl, by simp⟩
    · simp only [skipToClose, hc, if_false] at h
      obtain ⟨w, hw, hnw⟩ := ih h
      exact ⟨c :: w, by rw [hw]; rfl,
        by intro hmem; rcases List.mem_cons.mp hmem with h2 | h2
           · exact hc h2.symm
           · exact hnw h2⟩

/-- `skipToClose` runs to the first `>` of a `>`-free-prefixed input. -/
theorem skipToClose_append (b : List Char) :
    ∀ w : List Char, '>' ∉ w → skipToClose (w ++ '>' :: b) = some b := by
  intro w
  induction w with
  | nil => intro _; simp [skipToClose]
  | cons c w2 ih =>
    intro h
    have hc : c ≠ '>' := fun he => h (by simp [he])
    show skipToClose (c :: (w2 ++ '>' :: b)) = some b
    simp only [skipToClose, hc, if_false]
    exact ih (fun hm => h (List.mem_cons_of_mem _ hm))

/-- The scan `containsTag` agrees with the declarative tag pattern. -/
theorem containsTag_iff_hasTag : ∀ l : List Char,
    containsTag l = true ↔ HasTag l := by
  intro l
  induction l with
  | nil =>
    constructor
    · intro h; simp [containsTag] at h
    · intro ⟨a, w, b, he, _, _⟩; exact absurd he (by simp)
  | cons c rest ih =>
    constructor
    · intro h
      simp only [containsTag, Bool.or_eq_true, Bool.and_eq_true,
        decide_eq_true_eq, Option.isSome_iff_exists] at h
      rcases h with ⟨hc, l2, hf⟩ | h
      · subst hc
        cases rest with
        | nil => simp [findTag] at hf
        | cons c2 rest3 =>
          by_cases hc2 : c2 = '>'
          · simp [findTag, hc2] at hf
          · simp only [findTag, hc2, if_false] at hf
            obtain ⟨w, hw, hnw⟩ := skipToClose_decomp hf
            refine ⟨[], c2 :: w, l2, ?_, by simp, ?_⟩
            · rw [hw]; rfl
            · intro hmem
              rcases List.mem_cons.mp hmem with h2 | h2
              · exact hc2 h2.symm
              · exact hnw h2
      · obtain ⟨a, w, b, he, hne, hnw⟩ := ih.mp h
        exact ⟨c :: a, w, b, by rw [he]; rfl, hne, hnw⟩
    · intro ⟨a, w, b, he, hne, hnw⟩
      cases a with
      | nil =>
        simp only [List.nil_append] at he
        obtain ⟨w0, w2, rfl⟩ := List.exists_cons_of_ne_nil hne
        have hw0 : w0 ≠ '>' := fun hh => hnw (by simp [hh])
        cases he
        simp only [containsTag, Bool.or_eq_true, Bool.and_eq_true,
          decide_eq_true_eq]
        left
        refine ⟨by simp, ?_⟩
        show (findTag (w0 :: (w2 ++ '>' :: b))).isSome = true
        simp only [findTag, hw0, if_false]
        rw [skipToClose_append b w2 (fun hm => hnw (List.mem_cons_of_mem _ hm))]
        rfl
      | cons a0 a2 =>
        rw [List.cons_append] at he
        cases he
        simp only [containsTag, Bool.or_eq_true]
        right
        exact ih.mpr ⟨a2, w, b, rfl, hne, hnw⟩

/-- The tag pattern persists from an infix to the whole list. -/
theorem hasTag_of_isInfixOf {l1 l2 : List Char} (hinf : l1 <:+: l2)
    (h : HasTag l1) : HasTag l2 := by
  obtain ⟨s, t, hst⟩ := hinf
  obtain ⟨a, w, b, he, hne, hnw⟩ := h
  refine ⟨s ++ a, w, b ++ t, ?_, hne, hnw⟩
  rw [← hst, he]
  simp

/-- `pyStrip` keeps a contiguous piece of its input. -/
theorem pyStrip_isInfixOf (l : List Char) : pyStrip l <:+: l := by
  unfold pyStrip
  have h1 : l.dropWhile pyIsSpace <:+ l := List.dropWhile_suffix _
  have h2 : (l.dropWhile pyIsSpace).reverse.dropWhile pyIsSpace <:+
      (l.dropWhile pyIsSpace).reverse := List.dropWhile_suffix _
  have h3 : ((l.dropWhile pyIsSpace).reverse.dropWhile pyIsSpace).reverse <+:
      (l.dropWhile pyIsSpace).reverse.reverse := by
    rw [List.reverse_prefix]
    exact h2
  rw [List.reverse_reverse] at h3
  exact h3.isInfix.trans h1.isInfix

/-- C7: for every input string, the sanitizer's output contains no
substring matching the HTML tag pattern `<[^>]+>` — a single pass of
`removeTags` leaves no residual tag-shaped substring even for malformed
or nested markup — where the scan `containsTag` agrees with the
declarative tag pattern `HasTag`. -/
theorem c7_sanitize_no_tags :
    (∀ s : String, containsTag (cleanLabelText s).data = false) ∧
    (∀ l : List Char, containsTag l = true ↔ HasTag l) := by
  constructor
  · intro s
    show containsTag (pyStrip (removeTags (htmlUnescape s.data))) = false
    cases hb : containsTag (pyStrip (removeTags (htmlUnescape s.data))) with
    | false => rfl
    | true =>
      exfalso
      have h1 : HasTag (pyStrip (removeTags (htmlUnescape s.data))) :=
        (containsTag_iff_hasTag _).mp hb
      have h2 : HasTag (removeTags (htmlUnescape s.data)) :=
        hasTag_of_isInfixOf (pyStrip_isInfixOf _) h1
      have h3 := (containsTag_iff_hasTag _).mpr h2
      rw [containsTag_removeTags] at h3
      exact Bool.false_ne_true h3
  · exact containsTag_iff_hasTag

/-- `dictInsert` updates the inserted key and leaves the others. -/
theorem dictGet_dictInsert (d : List (String × String)) (k v k2 : String) :
    dictGet (dictInsert d k v) k2 = if k2 = k then some v else dictGet d k2 := by
  induction d with
  | nil => simp [dictInsert, dictGet]
  | cons p rest ih =>
    obtain ⟨k0, v0⟩ := p
    by_cases h0 : k0 = k
    · subst h0
      by_cases h2 : k2 = k0
      · simp [dictInsert, dictGet, h2]
      · simp [dictInsert, dictGet, h2]
    · by_cases h2 : k2 = k0
      · have hk : k2 ≠ k := fun he => h0 (by rw [← he, h2])
        simp [dictInsert, dictGet, h0, h2, hk]
      · simp only [dictInsert, h0, if_false, dictGet, h2, if_false]
        exact ih

/-- `dictGet` over an append looks left first. -/
theorem dictGet_append (l1 l2 : List (String × String)) (k : String) :
    dictGet (l1 ++ l2) k = (dictGet l1 k).or (dictGet l2 k) := by
  induction l1 with
  | nil => simp [dictGet]
  | cons p rest ih =>
    obtain ⟨k0, v0⟩ := p
    by_cases h : k = k0
    · simp [dictGet, h]
    · simp only [List.cons_append, dictGet, h, if_false]
      exact ih

/-- Folding `dictInsert` over entries: a key's value is that of its last
entry, earlier insertions shadowed. -/
theorem dictGet_foldl_insert (k : String) :
    ∀ (es : List (String × String)) (d0 : List (String × String)),
      dictGet (es.foldl (fun d kv => dictInsert d kv.1 kv.2) d0) k =
        (dictGet es.reverse k).or (dictGet d0 k) := by
  intro es
  induction es with
  | nil => intro d0; simp [dictGet]
  | cons kv es2 ih =>
    intro d0
    rw [List.foldl_cons, ih, List.reverse_cons, dictGet_append,
      Option.or_assoc]
    congr 1
    rw [dictGet_dictInsert]
    by_cases h : k = kv.1
    · simp [dictGet, h]
    · simp [dictGet, h]

/-- `dropWhile` skips a fully satisfying prefix. -/
theorem dropWhile_append_all {α : Type} (p : α → Bool) (x : List α) :
    ∀ u : List α, (∀ c ∈ u, p c = true) → (u ++ x).dropWhile p = x.dropWhile p := by
  intro u
  induction u with
  | nil => intro _; rfl
  | cons c u2 ih =>
    intro h
    rw [List.cons_append, List.dropWhile_cons, if_pos (h c (by simp))]
    exact ih (fun d hd => h d (List.mem_cons_of_mem _ hd))

/-- The head `dropWhile` stops at fails the predicate. -/
theorem dropWhile_head_false {α : Type} (p : α → Bool) :
    ∀ {l : List α} {c : α} {z : List α}, l.dropWhile p = c :: z → p c = false := by
  intro l
  induction l with
  | nil => intro c z h; simp at h
  | cons e rest ih =>
    intro c z h
    by_cases he : p e
    · rw [List.dropWhile_cons, if_pos he] at h
      exact ih h
    · rw [List.dropWhile_cons, if_neg he] at h
      cases h
      exact Bool.of_not_eq_true he

/-- Stripping an all-whitespace list gives the empty list. -/
theorem pyStrip_all_ws {l : List Char} (h : ∀ c ∈ l, pyIsSpace c = true) :
    pyStrip l = [] := by
  unfold pyStrip
  rw [List.dropWhile_eq_nil_iff.mpr h]
  rfl

/-- A leading all-whitespace block does not change `pyStrip`. -/
theorem pyStrip_ws_prefix {u : List Char} (x : List Char)
    (h : ∀ c ∈ u, pyIsSpace c = true) : pyStrip (u ++ x) = pyStrip x := by
  unfold pyStrip
  rw [dropWhile_append_all _ _ _ h]

/-- A trailing all-whitespace block does not change `pyStrip`. -/
theorem pyStrip_ws_suffix {v : List Char} (x : List Char)
    (h : ∀ c ∈ v, pyIsSpace c = true) : pyStrip (x ++ v) = pyStrip x := by
  cases hx : x.dropWhile pyIsSpace with
  | nil =>
    have hxw : ∀ c ∈ x, pyIsSpace c = true := List.dropWhile_eq_nil_iff.mp hx
    rw [pyStrip_all_ws hxw, pyStrip_all_ws]
    intro c hc
    rcases List.mem_append.mp hc with h2 | h2
    · exact hxw c h2
    · exact h c h2
  | cons c z =>
    have hcf : pyIsSpace c = false := dropWhile_head_false _ hx
    have hfront : (x ++ v).dropWhile pyIsSpace = (c :: z) ++ v := by
      conv_lhs => rw [← List.takeWhile_append_dropWhile pyIsSpace x]
      rw [List.append_assoc,
        dropWhile_append_all _ _ _ (fun d hd => List.mem_takeWhile_imp hd), hx,
        List.cons_append, List.dropWhile_cons, if_neg (by simp [hcf])]
    unfold pyStrip
    rw [hfront, hx]
    have : ((c :: z) ++ v).reverse = v.reverse ++ (c :: z).reverse := by
      simp
    rw [this, dropWhile_append_all _ _ _
      (fun d hd => h d (List.mem_reverse.mp hd))]

/-- Any list is the reversed back-drop plus the reversed back-take. -/
theorem reverse_take_drop_decomp (m : List Char) :
    m = (m.reverse.dropWhile pyIsSpace).reverse ++
      (m.reverse.takeWhile pyIsSpace).reverse := by
  conv_lhs => rw [← List.reverse_reverse m]
  rw [← List.reverse_append, List.takeWhile_append_dropWhile]

/-- `pyStrip` splits its input into whitespace, the core, whitespace. -/
theorem pyStrip_decomp (l : List Char) :
    ∃ u v, l = u ++ pyStrip l ++ v ∧ (∀ c ∈ u, pyIsSpace c = true) ∧
      (∀ c ∈ v, pyIsSpace c = true) := by
  refine ⟨l.takeWhile pyIsSpace,
    ((l.dropWhile pyIsSpace).reverse.takeWhile pyIsSpace).reverse, ?_, ?_, ?_⟩
  · conv_lhs => rw [← List.takeWhile_append_dropWhile pyIsSpace l]
    nth_rewrite 1 [reverse_take_drop_decomp (l.dropWhile pyIsSpace)]
    rw [List.append_assoc]
    rfl
  · intro c hc; exact List.mem_takeWhile_imp hc
  · intro c hc
    exact List.mem_takeWhile_imp (List.mem_reverse.mp hc)

/-- `arrowChars` sits at the head exactly when the head is `=` followed
by `>`. -/
theorem arrow_prefix_iff (c : Char) (rest : List Char) :
    arrowChars.isPrefixOf (c :: rest) = true ↔
      (c = '=' ∧ rest.head? = some '>') := by
  cases rest with
  | nil =>
    simp [arrowChars, List.isPrefixOf]
  | cons c2 rest3 =>
    simp only [arrowChars, List.isPrefixOf, List.head?, Bool.and_eq_true,
      beq_iff_eq, List.isPrefixOf_nil_left, and_true, Option.some.injEq]
    constructor
    · intro hh; exact ⟨hh.1.symm, hh.2.symm⟩
    · intro hh; exact ⟨hh.1.symm, hh.2.symm⟩

/-- A whitespace prefix passes through `splitArrow` into the key part. -/
theorem splitArrow_ws_prefix (x : List Char) :
    ∀ u : List Char, (∀ c ∈ u, pyIsSpace c = true) →
      splitArrow (u ++ x) = (u ++ (splitArrow x).1, (splitArrow x).2) := by
  intro u
  induction u with
  | nil => intro _; rfl
  | cons c u2 ih =>
    intro h
    have hc : c ≠ '=' := by
      intro he
      have := h c (by simp)
      rw [he] at this
      exact absurd this (by decide)
    rw [List.cons_append]
    show splitArrow (c :: (u2 ++ x)) = _
    rw [splitArrow]
    rw [if_neg (fun hand => hc hand.1)]
    rw [ih (fun d hd => h d (List.mem_cons_of_mem _ hd))]
    rfl

/-- With the delimiter inside `l`, a whitespace suffix passes through
`splitArrow` into the feature part. -/
theorem splitArrow_ws_suffix {v : List Char} (hv : ∀ c ∈ v, pyIsSpace c = true) :
    ∀ l : List Char, isSubstrOf arrowChars l = true →
      splitArrow (l ++ v) = ((splitArrow l).1, (splitArrow l).2 ++ v) := by
  intro l
  induction l with
  | nil => intro h; simp [isSubstrOf, arrowChars] at h
  | cons c rest ih =>
    intro h
    by_cases hhead : c = '=' ∧ rest.head? = some '>'
    · obtain ⟨hc, hr⟩ := hhead
      subst hc
      cases rest with
      | nil => simp at hr
      | cons c2 rest3 =>
        simp only [List.head?] at hr
        cases hr
        rw [List.cons_append, splitArrow, if_pos ⟨rfl, rfl⟩]
        rw [splitArrow, if_pos ⟨rfl, rfl⟩]
        rfl
    · have hhead2 : ¬(c = '=' ∧ (rest ++ v).head? = some '>') := by
        intro ⟨hc, hr⟩
        apply hhead
        refine ⟨hc, ?_⟩
        cases rest with
        | nil =>
          simp only [List.nil_append] at hr
          cases v with
          | nil => simp at hr
          | cons v0 v2 =>
            simp only [List.head?] at hr
            cases hr
            have := hv '>' (by simp)
            exact absurd this (by decide)
        | cons c2 rest3 => exact hr
      have hsub : isSubstrOf arrowChars rest = true := by
        unfold isSubstrOf at h
        rw [Bool.or_eq_true] at h
        rcases h with h | h
        · exfalso
          exact hhead ((arrow_prefix_iff c rest).mp h)
        · exact h
      rw [List.cons_append, splitArrow, if_neg hhead2, splitArrow, if_neg hhead]
      rw [ih hsub]

/-- One line of loading in `iStar-UVL.py` inserts its accepted entry. -/
theorem lineStepA_entry (d : List (String × String)) (line : String) :
    lineStepA d line =
      match acceptedEntryA line with
      | some kv => dictInsert d kv.1 kv.2
      | none => d := by
  unfold lineStepA acceptedEntryA
  by_cases h : isSubstrOf arrowChars (pyStripStr line).data = true
  · simp only [h, if_true]
  · simp only [Bool.not_eq_true] at h
    simp only [h]
    rfl

/-- `normalizeTextB` only reads the stripped input. -/
theorem normalizeTextB_strip_eq {x y : List Char} (h : pyStrip x = pyStrip y) :
    normalizeTextB ⟨x⟩ = normalizeTextB ⟨y⟩ := by
  unfold normalizeTextB
  exact congrArg String.mk (by rw [show (⟨x⟩ : String).data = x from rfl,
    show (⟨y⟩ : String).data = y from rfl, h])

/-- One line of loading in `istar-uvl.py` inserts its accepted entry:
the split of the raw line and the split of the stripped line agree once
the key is normalized and the feature trimmed. -/
theorem lineStepB_entry (d : List (String × String)) (line : String) :
    lineStepB d line =
      match acceptedEntryB line with
      | some kv => dictInsert d kv.1 kv.2
      | none => d := by
  unfold lineStepB acceptedEntryB
  by_cases h : (!(pyStripStr line).data.isEmpty &&
      !(['#'].isPrefixOf (pyStripStr line).data) &&
      isSubstrOf arrowChars (pyStripStr line).data) = true
  · simp only [h, if_true]
    have harrow : isSubstrOf arrowChars (pyStripStr line).data = true := by
      rw [Bool.and_eq_true, Bool.and_eq_true] at h
      exact h.2
    obtain ⟨u, v, hdec, hu, hv⟩ := pyStrip_decomp line.data
    have hdata : line.data = u ++ (pyStrip line.data ++ v) := by
      rw [← List.append_assoc]
      exact hdec
    have harrow2 : isSubstrOf arrowChars (pyStrip line.data) = true := harrow
    have e1 : splitArrow line.data =
        (u ++ (splitArrow (pyStrip line.data ++ v)).1,
         (splitArrow (pyStrip line.data ++ v)).2) := by
      conv_lhs => rw [hdata]
      exact splitArrow_ws_prefix _ u hu
    have e2 : splitArrow (pyStrip line.data ++ v) =
        ((splitArrow (pyStrip line.data)).1,
         (splitArrow (pyStrip line.data)).2 ++ v) :=
      splitArrow_ws_suffix hv _ harrow2
    have hsplit : splitArrow line.data =
        (u ++ (splitArrow (pyStrip line.data)).1,
         (splitArrow (pyStrip line.data)).2 ++ v) := by
      rw [e1, e2]
    have hkey : normalizeTextB ⟨(splitArrow line.data).1⟩ =
        normalizeTextB ⟨(splitArrow (pyStripStr line).data).1⟩ := by
      apply normalizeTextB_strip_eq
      rw [hsplit]
      exact pyStrip_ws_prefix _ hu
    have hfeat : pyStripStr ⟨(splitArrow line.data).2⟩ =
        pyStripStr ⟨(splitArrow (pyStripStr line).data).2⟩ := by
      unfold pyStripStr
      apply congrArg String.mk
      rw [hsplit]
      exact pyStrip_ws_suffix _ hv
    rw [hkey, hfeat]
  · simp only [Bool.not_eq_true] at h
    simp only [h]
    rfl

/-- Loading a mapping source is folding `dictInsert` over its accepted
entries, for `iStar-UVL.py`. -/
theorem loadA_eq_entries : ∀ (ls : List String) (d : List (String × String)),
    ls.foldl lineStepA d =
      (acceptedEntriesA ls).foldl (fun d kv => dictInsert d kv.1 kv.2) d := by
  intro ls
  induction ls with
  | nil => intro d; rfl
  | cons line ls2 ih =>
    intro d
    rw [List.foldl_cons, lineStepA_entry]
    show _ = ((line :: ls2).filterMap acceptedEntryA).foldl _ d
    rw [List.filterMap_cons]
    cases h : acceptedEntryA line with
    | none => exact ih d
    | some kv => rw [List.foldl_cons]; exact ih _

/-- Loading a mapping source is folding `dictInsert` over its accepted
entries, for `istar-uvl.py`. -/
theorem loadB_eq_entries : ∀ (ls : List String) (d : List (String × String)),
    ls.foldl lineStepB d =
      (acceptedEntriesB ls).foldl (fun d kv => dictInsert d kv.1 kv.2) d := by
  intro ls
  induction ls with
  | nil => intro d; rfl
  | cons line ls2 ih =>
    intro d
    rw [List.foldl_cons, lineStepB_entry]
    show _ = ((line :: ls2).filterMap acceptedEntryB).foldl _ d
    rw [List.filterMap_cons]
    cases h : acceptedEntryB line with
    | none => exact ih d
    | some kv => rw [List.foldl_cons]; exact ih _

/-- C10: when several accepted lines share a normalized key, the loaded
table maps that key to the feature of the last such line in file order —
looking the key up in the loaded table equals scanning the accepted
entries from the last backwards — for both scripts' `loadMappingFile`. -/
theorem c10_last_entry_wins (ls : List String) (k : String) :
    dictGet (loadMappingFileLinesA ls) k =
      dictGet (acceptedEntriesA ls).reverse k ∧
    dictGet (loadMappingFileLinesB ls) k =
      dictGet (acceptedEntriesB ls).reverse k := by
  constructor
  · unfold loadMappingFileLinesA
    rw [loadA_eq_entries, dictGet_foldl_insert]
    show _ = dictGet (acceptedEntriesA ls).reverse k
    rw [show dictGet [] k = none from rfl, Option.or_none]
  · unfold loadMappingFileLinesB
    rw [loadB_eq_entries, dictGet_foldl_insert]
    show _ = dictGet (acceptedEntriesB ls).reverse k
    rw [show dictGet [] k = none from rfl, Option.or_none]

/-- C2: `applyDefaultValues` adds `"Hardware"` to the backend set
exactly when that set is empty and `"Hardware"` is among the backend
table's feature values, symmetrically `"Middleware"` for the integration
set, and returns any non-empty set unchanged. -/
theorem c2_apply_default_values (backs integrs : Finset String) (m : MappingDicts) :
    (applyDefaultValues backs integrs m).1 =
      (if backs = ∅ ∧ "Hardware" ∈ m.backend.map Prod.snd
       then {"Hardware"} else backs) ∧
    (applyDefaultValues backs integrs m).2 =
      (if integrs = ∅ ∧ "Middleware" ∈ m.integration.map Prod.snd
       then {"Middleware"} else integrs) := by
  unfold applyDefaultValues
  dsimp only
  constructor
  · by_cases h : backs = ∅ ∧ "Hardware" ∈ m.backend.map Prod.snd
    · obtain ⟨h1, h2⟩ := h
      subst h1
      simp [h2]
    · rw [if_neg h]
      rw [if_neg (by rw [Finset.card_eq_zero]; exact h)]
  · by_cases h : integrs = ∅ ∧ "Middleware" ∈ m.integration.map Prod.snd
    · obtain ⟨h1, h2⟩ := h
      subst h1
      simp [h2]
    · rw [if_neg h]
      rw [if_neg (by rw [Finset.card_eq_zero]; exact h)]

/-- C4 counterexample: with the `backend` mapping file missing and the
other three present, `iStar-UVL.py`'s loader raises (its `open` has no
`FileNotFoundError` handler), rather than yielding an empty backend
table; `istar-uvl.py`'s loader returns the four empty tables. -/
theorem c4_counterexample_missing_file :
    loadAllMappingFilesA ⟨some [], some [], none, some []⟩ = Except.error () ∧
    loadAllMappingFilesB ⟨some [], some [], none, some []⟩ = ⟨[], [], [], []⟩ := by
  constructor
  · rfl
  · rfl

/-- C4 amended: for `istar-uvl.py`'s loader a missing mapping file acts
exactly as a present empty file — each absent category yields the empty
table, the other categories are unaffected, and classification over the
loaded tables is unchanged.  (`iStar-UVL.py` instead propagates the
error, per the counterexample.) -/
theorem c4_missing_source_tolerated (d : ConfigDir) (objs : List IStarObject) :
    loadAllMappingFilesB d = loadAllMappingFilesB (fillMissing d) ∧
    loadMappingFileB none = [] ∧
    mapIStarObjectsToFeatures objs (loadAllMappingFilesB d) =
      mapIStarObjectsToFeatures objs (loadAllMappingFilesB (fillMissing d)) := by
  have h : loadAllMappingFilesB d = loadAllMappingFilesB (fillMissing d) := by
    obtain ⟨a, n, b, i⟩ := d
    cases a <;> cases n <;> cases b <;> cases i <;> rfl
  exact ⟨h, rfl, by rw [h]⟩

unseal pySplit in
/-- C5 counterexample: the comment line `"# gpu => Hardware"` contains
the delimiter, so `iStar-UVL.py`'s `loadMappingFile` accepts it — the
claim says comment lines are skipped — while `istar-uvl.py` skips it. -/
theorem c5_counterexample_comment_line :
    loadMappingFileLinesA ["# gpu => Hardware"] = [("# gpu", "Hardware")] ∧
    loadMappingFileLinesB ["# gpu => Hardware"] = [] := by
  constructor
  · decide
  · decide

/-- C5 amended: `istar-uvl.py`'s `loadMappingFile` produces exactly the
entries of the lines that are non-blank, not `#`-comments and contain
`=>` — key normalized, feature trimmed (`acceptedEntryB`) — while
`iStar-UVL.py`'s filters only on containing `=>`, so comment lines with
the delimiter produce entries too (`acceptedEntryA`). -/
theorem c5_accepted_lines (ls : List String) :
    loadMappingFileLinesB ls =
      (acceptedEntriesB ls).foldl (fun d kv => dictInsert d kv.1 kv.2) [] ∧
    loadMappingFileLinesA ls =
      (acceptedEntriesA ls).foldl (fun d kv => dictInsert d kv.1 kv.2) [] :=
  ⟨loadB_eq_entries ls [], loadA_eq_entries ls []⟩

unseal pySplit removeTags htmlUnescape in
/-- C3 counterexample: on `"protein-folding"` the two scripts' identifier
formatters disagree — `istar-uvl.py` replaces the hyphen by a space and
yields `"ProteinFolding"` as the claim describes, while `iStar-UVL.py`
filters the hyphenated word out and falls back to `"RootGoal"`. -/
theorem c3_counterexample_protein_folding :
    convertTextToUvlIdentifier (some "protein-folding") = "ProteinFolding" ∧
    formatRootFeatureName (some "protein-folding") = "RootGoal" := by
  constructor
  · decide
  · decide

/-- C9 counterexample: with a constraints block appended the output does
not end with a newline — its last character is the block's closing
brace. -/
theorem c9_counterexample_trailing_newline :
    (buildUvlModel "Test" ["A"] ["Precision"] [] []).data.getLast? =
      some '\x7d' := by
  decide

/-- Membership in one `scanDict` pass: already accumulated, or some
table pair whose keyword occurs in the text contributes the feature. -/
theorem mem_scanDict (txt : String) (f : String) :
    ∀ (d : List (String × String)) (acc : Finset String),
      f ∈ scanDict txt d acc ↔
        f ∈ acc ∨ ∃ kf ∈ d, isSubstrOf kf.1.data txt.data = true ∧ kf.2 = f := by
  intro d
  induction d with
  | nil => intro acc; simp [scanDict]
  | cons kf0 d2 ih =>
    intro acc
    show f ∈ scanDict txt d2
      (if isSubstrOf kf0.1.data txt.data then insert kf0.2 acc else acc) ↔ _
    rw [ih]
    by_cases h : isSubstrOf kf0.1.data txt.data = true
    · simp only [h, if_true, Finset.mem_insert]
      constructor
      · rintro ((rfl | hacc) | ⟨kf, hkf, hs, he⟩)
        · exact Or.inr ⟨kf0, by simp, h, rfl⟩
        · exact Or.inl hacc
        · exact Or.inr ⟨kf, List.mem_cons_of_mem _ hkf, hs, he⟩
      · rintro (hacc | ⟨kf, hkf, hs, he⟩)
        · exact Or.inl (Or.inr hacc)
        · rcases List.mem_cons.mp hkf with rfl | hkf2
          · exact Or.inl (Or.inl he.symm)
          · exact Or.inr ⟨kf, hkf2, hs, he⟩
    · rw [if_neg h]
      constructor
      · rintro (hacc | ⟨kf, hkf, hs, he⟩)
        · exact Or.inl hacc
        · exact Or.inr ⟨kf, List.mem_cons_of_mem _ hkf, hs, he⟩
      · rintro (hacc | ⟨kf, hkf, hs, he⟩)
        · exact Or.inl hacc
        · rcases List.mem_cons.mp hkf with rfl | hkf2
          · exact absurd hs h
          · exact Or.inr ⟨kf, hkf2, hs, he⟩

/-- Membership after scanning one table over all objects. -/
theorem mem_foldl_scan (d : List (String × String)) (f : String) :
    ∀ (objs : List IStarObject) (acc : Finset String),
      f ∈ objs.foldl (fun s o => scanDict o.norm d s) acc ↔
        f ∈ acc ∨ ∃ o ∈ objs, ∃ kf ∈ d,
          isSubstrOf kf.1.data o.norm.data = true ∧ kf.2 = f := by
  intro objs
  induction objs with
  | nil => intro acc; simp
  | cons o objs2 ih =>
    intro acc
    rw [List.foldl_cons, ih, mem_scanDict]
    constructor
    · rintro ((hacc | ⟨kf, hkf, hs, he⟩) | ⟨o2, ho2, hrest⟩)
      · exact Or.inl hacc
      · exact Or.inr ⟨o, by simp, kf, hkf, hs, he⟩
      · exact Or.inr ⟨o2, List.mem_cons_of_mem _ ho2, hrest⟩
    · rintro (hacc | ⟨o2, ho2, hrest⟩)
      · exact Or.inl (Or.inl hacc)
      · rcases List.mem_cons.mp ho2 with rfl | ho3
        · exact Or.inl (Or.inr hrest)
        · exact Or.inr ⟨o2, ho3, hrest⟩

/-- The four-set fold of `mapIStarObjectsToFeatures` componentwise. -/
theorem classifySets_components (m : MappingDicts) :
    ∀ (objs : List IStarObject)
      (acc : Finset String × Finset String × Finset String × Finset String),
      objs.foldl
        (fun acc obj =>
          (scanDict obj.norm m.algorithms acc.1,
           scanDict obj.norm m.nfrs acc.2.1,
           scanDict obj.norm m.backend acc.2.2.1,
           scanDict obj.norm m.integration acc.2.2.2)) acc =
      (objs.foldl (fun s o => scanDict o.norm m.algorithms s) acc.1,
       objs.foldl (fun s o => scanDict o.norm m.nfrs s) acc.2.1,
       objs.foldl (fun s o => scanDict o.norm m.backend s) acc.2.2.1,
       objs.foldl (fun s o => scanDict o.norm m.integration s) acc.2.2.2) := by
  intro objs
  induction objs with
  | nil => intro acc; rfl
  | cons o objs2 ih =>
    intro acc
    rw [List.foldl_cons, ih]
    rfl

/-- C1: a feature enters a category's accumulated set exactly when some
`(keyword, feature)` pair of that category's table has the keyword
occurring as a substring of some object's normalized label (before the
default fallback), and each of the four returned lists is
lexicographically sorted with no repeated feature name. -/
theorem c1_classification (objs : List IStarObject) (m : MappingDicts) :
    (∀ f, f ∈ (classifySets objs m).1 ↔ ∃ o ∈ objs, ∃ kf ∈ m.algorithms,
      isSubstrOf kf.1.data o.norm.data = true ∧ kf.2 = f) ∧
    (∀ f, f ∈ (classifySets objs m).2.1 ↔ ∃ o ∈ objs, ∃ kf ∈ m.nfrs,
      isSubstrOf kf.1.data o.norm.data = true ∧ kf.2 = f) ∧
    (∀ f, f ∈ (classifySets objs m).2.2.1 ↔ ∃ o ∈ objs, ∃ kf ∈ m.backend,
      isSubstrOf kf.1.data o.norm.data = true ∧ kf.2 = f) ∧
    (∀ f, f ∈ (classifySets objs m).2.2.2 ↔ ∃ o ∈ objs, ∃ kf ∈ m.integration,
      isSubstrOf kf.1.data o.norm.data = true ∧ kf.2 = f) ∧
    ((mapIStarObjectsToFeatures objs m).1.Sorted (· ≤ ·) ∧
      (mapIStarObjectsToFeatures objs m).1.Nodup) ∧
    ((mapIStarObjectsToFeatures objs m).2.1.Sorted (· ≤ ·) ∧
      (mapIStarObjectsToFeatures objs m).2.1.Nodup) ∧
    ((mapIStarObjectsToFeatures objs m).2.2.1.Sorted (· ≤ ·) ∧
      (mapIStarObjectsToFeatures objs m).2.2.1.Nodup) ∧
    ((mapIStarObjectsToFeatures objs m).2.2.2.Sorted (· ≤ ·) ∧
      (mapIStarObjectsToFeatures objs m).2.2.2.Nodup) := by
  have hc : classifySets objs m =
      (objs.foldl (fun s o => scanDict o.norm m.algorithms s) ∅,
       objs.foldl (fun s o => scanDict o.norm m.nfrs s) ∅,
       objs.foldl (fun s o => scanDict o.norm m.backend s) ∅,
       objs.foldl (fun s o => scanDict o.norm m.integration s) ∅) :=
    classifySets_components m objs (∅, ∅, ∅, ∅)
  refine ⟨?_, ?_, ?_, ?_, ?_, ?_, ?_, ?_⟩
  · intro f
    rw [hc]
    show f ∈ objs.foldl (fun s o => scanDict o.norm m.algorithms s) ∅ ↔ _
    rw [mem_foldl_scan]
    simp
  · intro f
    rw [hc]
    show f ∈ objs.foldl (fun s o => scanDict o.norm m.nfrs s) ∅ ↔ _
    rw [mem_foldl_scan]
    simp
  · intro f
    rw [hc]
    show f ∈ objs.foldl (fun s o => scanDict o.norm m.backend s) ∅ ↔ _
    rw [mem_foldl_scan]
    simp
  · intro f
    rw [hc]
    show f ∈ objs.foldl (fun s o => scanDict o.norm m.integration s) ∅ ↔ _
    rw [mem_foldl_scan]
    simp
  · exact ⟨Finset.sort_sorted _ _, Finset.sort_nodup _ _⟩
  · exact ⟨Finset.sort_sorted _ _, Finset.sort_nodup _ _⟩
  · exact ⟨Finset.sort_sorted _ _, Finset.sort_nodup _ _⟩
  · exact ⟨Finset.sort_sorted _ _, Finset.sort_nodup _ _⟩

/-- `buildUvlModel`'s lines are the feature tree followed by the
conditional constraints block. -/
theorem buildUvlLines_eq (root : String) (algos nfrs backs integrs : List String) :
    buildUvlLines root algos nfrs backs integrs =
      uvlFeatureLines root algos nfrs backs integrs ++
      (if algos ≠ [] ∧ "Precision" ∈ nfrs then
        "constraints \x7b" ::
          algos.map (fun a => "  " ++ a ++ " requires Precision") ++ ["\x7d"]
       else []) := by
  unfold buildUvlLines uvlFeatureLines
  by_cases ha : algos = [] <;> by_cases hb : backs = [] <;>
    by_cases hi : integrs = [] <;> by_cases hp : "Precision" ∈ nfrs <;>
      simp [ha, hb, hi, hp, List.length_pos]

/-- A string beginning with a space is not the constraints header. -/
theorem ne_constraints_of_head {x : String} (h : x.data.head? = some ' ') :
    x ≠ "constraints \x7b" := by
  intro he
  rw [he] at h
  exact absurd h (by decide)

/-- C6: the rendered lines carry a constraints block exactly when the
algorithms list is non-empty and `"Precision"` is in the NFR list, the
block holding one `"<algo> requires Precision"` line per algorithm in
the algorithms list's order; the feature tree itself never contains the
block's header line. -/
theorem c6_constraints_block (root : String) (algos nfrs backs integrs : List String) :
    (buildUvlLines root algos nfrs backs integrs =
      uvlFeatureLines root algos nfrs backs integrs ++
      (if algos ≠ [] ∧ "Precision" ∈ nfrs then
        "constraints \x7b" ::
          algos.map (fun a => "  " ++ a ++ " requires Precision") ++ ["\x7d"]
       else [])) ∧
    (("constraints \x7b" ∈ uvlFeatureLines root algos nfrs backs integrs) ↔
      False) := by
  refine ⟨buildUvlLines_eq root algos nfrs backs integrs, iff_false_intro ?_⟩
  intro hmem
  have hsp : ∀ (p x : String), p.data.head? = some ' ' →
      "constraints \x7b" = p ++ x → False := by
    intro p x hp he
    refine ne_constraints_of_head ?_ he.symm
    rw [String.data_append]
    cases hd : p.data with
    | nil => rw [hd] at hp; exact absurd hp (by simp)
    | cons c t =>
      rw [hd] at hp
      simp only [List.head?] at hp
      cases hp
      rfl
  unfold uvlFeatureLines at hmem
  rcases List.mem_append.mp hmem with h1 | htail
  swap
  · rcases List.mem_cons.mp htail with h | h
    · exact absurd h (by decide)
    · rcases List.mem_cons.mp h with h | h
      · exact absurd h (by decide)
      · rcases List.mem_cons.mp h with h | h
        · exact absurd h (by decide)
        · simp at h
  rcases List.mem_append.mp h1 with h2 | hnfr
  swap
  · rcases List.mem_map.mp hnfr with ⟨n, _, hn⟩
    exact hsp "    " n (by decide) hn.symm
  rcases List.mem_append.mp h2 with h3 | hifI
  swap
  · split at hifI
    · simp at hifI
    · rcases List.mem_cons.mp hifI with h | h
      · exact absurd h (by decide)
      · rcases List.mem_append.mp h with h | h
        · rcases List.mem_map.mp h with ⟨i, _, hi⟩
          exact hsp "      " i (by decide) hi.symm
        · rcases List.mem_cons.mp h with h | h
          · exact absurd h (by decide)
          · simp at h
  rcases List.mem_append.mp h3 with h4 | hifB
  swap
  · split at hifB
    · simp at hifB
    · rcases List.mem_cons.mp hifB with h | h
      · exact absurd h (by decide)
      · rcases List.mem_append.mp h with h | h
        · rcases List.mem_map.mp h with ⟨b, _, hb⟩
          exact hsp "      " b (by decide) hb.symm
        · rcases List.mem_cons.mp h with h | h
          · exact absurd h (by decide)
          · simp at h
  rcases List.mem_append.mp h4 with h5 | hifA
  swap
  · split at hifA
    · simp at hifA
    · rcases List.mem_cons.mp hifA with h | h
      · exact absurd h (by decide)
      · rcases List.mem_append.mp h with h | h
        · rcases List.mem_map.mp h with ⟨a, _, ha⟩
          exact hsp "      " a (by decide) ha.symm
        · rcases List.mem_cons.mp h with h | h
          · exact absurd h (by decide)
          · simp at h
  rcases List.mem_cons.mp h5 with h | h
  · exact absurd h (by decide)
  · rcases List.mem_cons.mp h with h | h
    · exact hsp "  " (root ++ " \x7b") (by decide)
        (by rw [← String.append_assoc]; exact h)
    · simp at h

/-- `joinLines` over a list ending in one more line appends a newline
and that line's characters. -/
theorem joinLines_append_last : ∀ (ls : List String) (l : String), ls ≠ [] →
    joinLines (ls ++ [l]) = joinLines ls ++ '\n' :: l.data := by
  intro ls
  induction ls with
  | nil => intro l h; exact absurd rfl h
  | cons l0 ls2 ih =>
    intro l _
    cases ls2 with
    | nil => rfl
    | cons l1 ls3 =>
      show joinLines (l0 :: ((l1 :: ls3) ++ [l])) = _
      rw [show joinLines (l0 :: ((l1 :: ls3) ++ [l])) =
        l0.data ++ '\n' :: joinLines ((l1 :: ls3) ++ [l]) from rfl]
      rw [ih l (by simp)]
      show _ = (l0.data ++ '\n' :: joinLines (l1 :: ls3)) ++ '\n' :: l.data
      rw [List.append_assoc]
      rfl

/-- C9 amended: the rendered lines are the two-space-per-level feature
tree (`uvlFeatureLines`) followed by the conditional constraints block,
and the output string ends in a newline exactly when no constraints
block is appended — when the block is appended the output ends with its
closing brace instead. -/
theorem c9_trailing_newline (root : String) (algos nfrs backs integrs : List String) :
    (buildUvlModel root algos nfrs backs integrs).data.getLast? =
      (if algos ≠ [] ∧ "Precision" ∈ nfrs then some '\x7d' else some '\n') ∧
    buildUvlLines root algos nfrs backs integrs =
      uvlFeatureLines root algos nfrs backs integrs ++
      (if algos ≠ [] ∧ "Precision" ∈ nfrs then
        "constraints \x7b" ::
          algos.map (fun a => "  " ++ a ++ " requires Precision") ++ ["\x7d"]
       else []) := by
  refine ⟨?_, buildUvlLines_eq root algos nfrs backs integrs⟩
  show (joinLines (buildUvlLines root algos nfrs backs integrs)).getLast? = _
  rw [buildUvlLines_eq]
  have hhead : ∃ t, uvlFeatureLines root algos nfrs backs integrs =
      "features \x7b" :: t := ⟨_, rfl⟩
  obtain ⟨t, ht⟩ := hhead
  by_cases h : algos ≠ [] ∧ "Precision" ∈ nfrs
  · rw [if_pos h, if_pos h]
    rw [show "constraints \x7b" ::
        algos.map (fun a => "  " ++ a ++ " requires Precision") ++ ["\x7d"] =
      ("constraints \x7b" ::
        algos.map (fun a => "  " ++ a ++ " requires Precision")) ++ ["\x7d"]
      from rfl]
    rw [← List.append_assoc]
    rw [joinLines_append_last _ _ (by rw [ht]; simp)]
    rw [show ("\x7d" : String).data = ['\x7d'] from rfl]
    rw [show ('\n' :: ['\x7d']) = ['\n'] ++ ['\x7d'] from rfl, ← List.append_assoc]
    rw [List.getLast?_concat]
  · rw [if_neg h, if_neg h, List.append_nil]
    have hsplit : ∀ C : List String,
        C ++ ["  \x7d", "\x7d", ""] = (C ++ ["  \x7d", "\x7d"]) ++ [""] := by
      intro C
      rw [List.append_assoc]
      rfl
    unfold uvlFeatureLines
    rw [hsplit]
    rw [joinLines_append_last _ _ (by simp)]
    rw [show ("" : String).data = [] from rfl]
    rw [show ('\n' :: ([] : List Char)) = ['\n'] from rfl]
    rw [List.getLast?_concat]

/-- C3 amended: `convertTextToUvlIdentifier` of `istar-uvl.py` realises
the spec's identifier-formatter algorithm exactly — punctuation and
underscores to spaces, split on whitespace, keep the fully alphanumeric
words capitalized and concatenated, `"RootGoal"` for null input or when
zero words survive.  (`formatRootFeatureName` of `iStar-UVL.py` differs,
per the counterexample.) -/
theorem c3_identifier_formatter (input : Option String) :
    convertTextToUvlIdentifier input = specIdentifierFormatter input := by
  cases input with
  | none => rfl
  | some s =>
    unfold convertTextToUvlIdentifier specIdentifierFormatter
    dsimp only
    have hstep : ∀ c : Char,
        (if pyIsAlnum c || c = ' ' || c = '_' then c else ' ') =
        (if !pyIsAlnum c && c ≠ ' ' && c ≠ '_' then ' ' else c) := by
      intro c
      by_cases h1 : pyIsAlnum c = true <;> by_cases h2 : c = ' ' <;>
        by_cases h3 : c = '_' <;> simp [h1, h2, h3]
    have hmap : s.data.map (fun c => if pyIsAlnum c || c = ' ' || c = '_'
          then c else ' ') =
        s.data.map (fun c => if !pyIsAlnum c && c ≠ ' ' && c ≠ '_'
          then ' ' else c) :=
      List.map_congr_left (fun c _ => hstep c)
    rw [hmap]
    have hfilter : ∀ l : List (List Char),
        l.filter pyStrIsAlnum = l.filter (fun w => !w.isEmpty && w.all pyIsAlnum) := by
      intro l
      rfl
    rw [hfilter]
    cases hk : (pySplit ((s.data.map (fun c =>
        if !pyIsAlnum c && c ≠ ' ' && c ≠ '_' then ' ' else c)).map
          (fun c => if c = '_' then ' ' else c))).filter
            (fun w => !w.isEmpty && w.all pyIsAlnum) with
    | nil => rfl
    | cons w ws => rfl
